import Mathlib

/-!
# Verification of the `tser` typing-test application core

A shallow embedding of `src/src/main.rs` (the whole program is one file).
Rust `String`s are modelled as `List Char`; Rust's `String::len` returns the
UTF-8 byte length, which we model faithfully with `byteLen` (summing
`Char.utf8Size` over the characters).  `Instant` timestamps are modelled as
abstract `Nat` values supplied by the environment: `Instant::now()` at a key
event becomes the `now` parameter of `handle_key`, and elapsed seconds become
an explicit parameter of the words-per-minute computation.  `f64` arithmetic
in the metrics is modelled exactly over `ℚ`; every concrete value the claims
mention (100.0, 9.0, one-decimal accuracy) is produced by exact `f64`
operations in the source (small-integer division and multiplication by 100),
so the rational model agrees with the floating-point values at the points the
claims test.
-/

namespace Tser

/-- UTF-8 byte length of a list of characters: the model of Rust's
`String::len` (which counts bytes, not characters). -/
def byteLen (s : List Char) : Nat :=
  (s.map Char.utf8Size).sum

/-- The application state, from `struct App` in `main.rs`:
sample text, typed text, optional start timestamp, finished flag, quit flag. -/
structure App where
  sample : List Char
  typed : List Char
  start_time : Option Nat
  finished : Bool
  quit : Bool
deriving DecidableEq, Repr

/-- The fixed sample sentence from `App::new`. -/
def sampleText : List Char :=
  "The quick brown fox jumps over the lazy dog.".data

/-- `App::new()`: sample set to the literal, everything else default
(empty typed text, no start time, not finished, not quitting). -/
def App.new : App :=
  { sample := sampleText
    typed := []
    start_time := none
    finished := false
    quit := false }

/-- The key events distinguished by `handle_key`'s `match`:
`Esc`, `Backspace`, `Char(c)`, and the catch-all `_` arm. -/
inductive Key where
  | esc : Key
  | backspace : Key
  | char (c : Char) : Key
  | other : Key
deriving DecidableEq

/-- `try_finish`: set `finished` when `typed.len() >= sample.len()` (byte
lengths) and `typed == sample`. -/
def try_finish (app : App) : App :=
  if byteLen app.sample ≤ byteLen app.typed ∧ app.typed = app.sample then
    { app with finished := true }
  else
    app

/-- `handle_key`: Esc sets `quit`; Backspace pops the last typed character
unconditionally (`String::pop` on an empty string is a no-op); a printable
character is ignored when finished, otherwise it sets `start_time` on first
use, appends, and runs `try_finish`; all other keys do nothing.  `now` models
the value of `Instant::now()` at the moment of the event. -/
def handle_key (key : Key) (now : Nat) (app : App) : App :=
  match key with
  | .esc => { app with quit := true }
  | .backspace => { app with typed := app.typed.dropLast }
  | .char c =>
      if app.finished then
        app
      else
        let app1 :=
          if app.start_time.isNone then { app with start_time := some now } else app
        try_finish { app1 with typed := app1.typed ++ [c] }
  | .other => app

/-- The number of matching positions as the source computes it:
`typed.chars().zip(sample.chars()).filter(|(t, s)| t == s).count()`. -/
def matchCountZip (typed sample : List Char) : Nat :=
  ((typed.zip sample).filter (fun p => p.1 == p.2)).length

/-- `accuracy`: 100.0 for empty typed text, otherwise the zip-match count
divided by `typed.len()` — the BYTE length of the typed text — times 100.
`f64` modelled exactly over `ℚ`. -/
def accuracy (app : App) : ℚ :=
  if app.typed = [] then 100
  else (matchCountZip app.typed app.sample : ℚ) / (byteLen app.typed : ℚ) * 100

/-- The match count as the spec words it: the number of positions `i` up to
`typed`'s length (character positions) at which a sample character exists and
agrees with the typed character; positions beyond the sample count as
mismatches. -/
def matchCountSpec (typed sample : List Char) : Nat :=
  ((List.range typed.length).filter
    (fun i => decide (i < sample.length) && (typed[i]? == sample[i]?))).length

/-- The accuracy formula exactly as the spec states it (for the refinement
claim): matches divided by the number of typed CHARACTERS, times 100. -/
def accuracySpec (app : App) : ℚ :=
  if app.typed = [] then 100
  else (matchCountSpec app.typed app.sample : ℚ) / (app.typed.length : ℚ) * 100

/-- The three colors used by the renderer's per-character styling. -/
inductive Color where
  | green : Color
  | red : Color
  | darkGray : Color
deriving DecidableEq, Repr

/-- The per-character color run of the top panel, from `ui`: for each
position `i` of the sample, look up `typed.chars().nth(i)`; green on a match,
red on a typed mismatch, dark gray when not yet typed. -/
def renderColors (app : App) : List Color :=
  app.sample.enum.map (fun p =>
    match app.typed[p.1]? with
    | some t => if t = p.2 then Color.green else Color.red
    | none => Color.darkGray)

/-- `ui`'s rough word count: spaces in the sample, plus one. -/
def word_count (s : List Char) : Nat :=
  (s.filter (fun c => c == ' ')).length + 1

/-- `ui`'s words-per-minute: `words / minutes` with
`minutes = elapsed_seconds / 60`.  `f64` modelled exactly over `ℚ`;
`elapsedSecs` models `start_time.unwrap().elapsed().as_secs_f64()`. -/
def wpm (words : Nat) (elapsedSecs : ℚ) : ℚ :=
  (words : ℚ) / (elapsedSecs / 60)

/-- States reachable from `App::new()` by any sequence of key events,
with arbitrary timestamps. -/
inductive Reachable : App → Prop where
  | init : Reachable App.new
  | step (app : App) (key : Key) (now : Nat) :
      Reachable app → Reachable (handle_key key now app)

/-- Typing a list of characters in order, all with timestamp 0 (helper for
exhibiting concrete reachable states). -/
def typeAll (cs : List Char) (app : App) : App :=
  cs.foldl (fun a c => handle_key (.char c) 0 a) app

-- Sanity checks on concrete inputs (kept as anonymous examples).
example : byteLen "Té".data = 3 := by decide
example : (typeAll "cat".data { App.new with sample := "cat".data }).finished = true := by
  decide
example : matchCountZip "The".data sampleText = 3 ∧ byteLen "The".data = 3 := by decide

/-! ## Helper lemmas -/

theorem byteLen_nil : byteLen [] = 0 := rfl

theorem byteLen_cons (c : Char) (l : List Char) :
    byteLen (c :: l) = c.utf8Size + byteLen l := by
  simp [byteLen]

/-- Every character occupies at least one UTF-8 byte, so the character count
never exceeds the byte length. -/
theorem length_le_byteLen (l : List Char) : l.length ≤ byteLen l := by
  induction l with
  | nil => simp [byteLen]
  | cons c l ih =>
      have hc := Char.utf8Size_pos c
      simp only [List.length_cons, byteLen_cons]
      omega

/-- For a list of one-byte (ASCII) characters the byte length is the
character count. -/
theorem byteLen_eq_length (l : List Char) (h : ∀ c ∈ l, c.utf8Size = 1) :
    byteLen l = l.length := by
  induction l with
  | nil => simp [byteLen]
  | cons c l ih =>
      simp only [byteLen_cons, List.length_cons]
      rw [h c (by simp), ih (fun d hd => h d (by simp [hd]))]
      omega

/-- Every character of the fixed sample sentence is ASCII. -/
theorem sampleText_ascii : ∀ c ∈ sampleText, c.utf8Size = 1 := by decide

theorem matchCountZip_le_length (t s : List Char) : matchCountZip t s ≤ t.length :=
  le_trans (List.length_filter_le _ _)
    (by rw [List.length_zip]; exact min_le_left _ _)

/-- Along an initial segment the zip comparison matches at every position. -/
theorem matchCountZip_append (t u : List Char) :
    matchCountZip t (t ++ u) = t.length := by
  induction t with
  | nil => rfl
  | cons c t ih =>
      simp only [matchCountZip, List.cons_append, List.zip_cons_cons, List.filter_cons,
        beq_self_eq_true, if_true, List.length_cons] at *
      omega

theorem matchCountSpec_nil_right (t : List Char) : matchCountSpec t [] = 0 := by
  simp [matchCountSpec]

theorem matchCountSpec_cons (a b : Char) (t s : List Char) :
    matchCountSpec (a :: t) (b :: s)
      = (if a = b then 1 else 0) + matchCountSpec t s := by
  have hcong : List.filter
        ((fun i => decide (i < s.length + 1) && ((a :: t)[i]? == (b :: s)[i]?)) ∘ Nat.succ)
        (List.range t.length)
      = List.filter (fun i => decide (i < s.length) && (t[i]? == s[i]?))
        (List.range t.length) :=
    List.filter_congr (fun i _ => by simp [Nat.succ_lt_succ_iff])
  simp only [matchCountSpec, List.length_cons, List.range_succ_eq_map, List.filter_cons,
    List.filter_map, List.length_map, hcong]
  by_cases hab : a = b
  · simp [hab]
    omega
  · simp [hab]

/-- The source's zip-filter count coincides with the spec's position-by-position
match count. -/
theorem matchCountZip_eq_spec (t s : List Char) :
    matchCountZip t s = matchCountSpec t s := by
  induction t generalizing s with
  | nil => simp [matchCountZip, matchCountSpec]
  | cons a t ih =>
      cases s with
      | nil => simp [matchCountZip, matchCountSpec_nil_right]
      | cons b s =>
          rw [matchCountSpec_cons, ← ih]
          simp only [matchCountZip, List.zip_cons_cons, List.filter_cons]
          by_cases hab : a = b
          · simp [hab]; omega
          · simp [hab]

theorem try_finish_start_time (app : App) :
    (try_finish app).start_time = app.start_time := by
  unfold try_finish; split <;> rfl

theorem try_finish_typed (app : App) : (try_finish app).typed = app.typed := by
  unfold try_finish; split <;> rfl

theorem try_finish_quit (app : App) : (try_finish app).quit = app.quit := by
  unfold try_finish; split <;> rfl

/-- The byte-length guard in `try_finish` is redundant: the flag is set
exactly when typed text equals the sample (or was already set). -/
theorem try_finish_finished_iff (app : App) :
    (try_finish app).finished = true ↔
      (app.finished = true ∨ app.typed = app.sample) := by
  unfold try_finish
  by_cases h : byteLen app.sample ≤ byteLen app.typed ∧ app.typed = app.sample
  · rw [if_pos h]
    simp [h.2]
  · rw [if_neg h]
    rw [not_and_or] at h
    rcases h with h | h
    · have hne : app.typed ≠ app.sample := fun he => h (le_of_eq (congrArg byteLen he.symm))
      simp [hne]
    · simp [h]

theorem reachable_typeAll (cs : List Char) (app : App) (h : Reachable app) :
    Reachable (typeAll cs app) := by
  induction cs generalizing app with
  | nil => exact h
  | cons c cs ih => exact ih _ (Reachable.step app (.char c) 0 h)

/-! ## Concrete states used by counterexamples and witnesses -/

/-- The state the spec's backspacing example posits: sample "cat", typed
"cats", not finished. -/
def appCats : App :=
  { sample := "cat".data, typed := "cats".data, start_time := some 0,
    finished := false, quit := false }

/-- A mid-typing state against sample "cat": typed "ca". -/
def appCa : App :=
  { sample := "cat".data, typed := "ca".data, start_time := some 0,
    finished := false, quit := false }

/-- A state whose typed text "Té" has two characters but three UTF-8 bytes. -/
def appAccent : App :=
  { sample := sampleText, typed := "Té".data, start_time := some 0,
    finished := false, quit := false }

/-- A state whose typed text is an initial segment of the sample. -/
def appSeg : App :=
  { sample := sampleText, typed := "The quick".data, start_time := some 0,
    finished := false, quit := false }

/-- A state with two typed characters. -/
def appAB : App :=
  { sample := sampleText, typed := "ab".data, start_time := some 0,
    finished := false, quit := false }

/-- A completed session. -/
def appDone : App :=
  { sample := "cat".data, typed := "cat".data, start_time := some 0,
    finished := true, quit := false }

/-- A state with one correct character, one wrong one, and one not yet
typed. -/
def appCb : App :=
  { sample := "cat".data, typed := "cb".data, start_time := some 0,
    finished := false, quit := false }

/-! ## Claims -/

/-- C1 (counterexample): from the state the claim posits — sample "cat",
typed "cats", `finished` still false — a Backspace event brings the typed
text back down to "cat", yet `finished` stays false: `try_finish` is only
invoked after a character push, never on backspace, contradicting the
claim's "backspacing back down to \"cat\" does set finished to true". -/
theorem backspace_to_cat_does_not_finish :
    (handle_key .backspace 0 appCats).typed = "cat".data ∧
    (handle_key .backspace 0 appCats).finished = false := by decide

/-- C1 (amended): `finished` is set exactly by printable-character events:
from an unfinished state, handling character `c` sets `finished` iff the new
typed text `typed ++ [c]` equals the sample; Backspace (like Esc and any
other key) never changes `finished`, so backspacing from "cats" down to
"cat" leaves `finished` false. -/
theorem finished_iff_char_completes_sample (app : App) (c : Char) (now : Nat)
    (h : app.finished = false) :
    ((handle_key (.char c) now app).finished = true ↔
      app.typed ++ [c] = app.sample) ∧
    (handle_key .backspace now app).finished = false ∧
    (handle_key .esc now app).finished = false ∧
    (handle_key .other now app).finished = false := by
  refine ⟨?_, h, h, h⟩
  simp only [handle_key, h, Bool.false_eq_true, if_false]
  by_cases hst : app.start_time.isNone <;>
    simp [hst, try_finish_finished_iff, h]

/-- C1 witness: typing 't' from typed "ca" against sample "cat" finishes. -/
theorem finished_iff_char_completes_sample_witness :
    (handle_key (.char 't') 0 appCa).finished = true :=
  (finished_iff_char_completes_sample appCa 't' 0 rfl).1.mpr (by decide)

/-- C2 (counterexample): with typed "Té" against the fixed sample, exactly
the first character matches; the code divides that single match by
`typed.len()` — the UTF-8 byte length 3 — giving 100/3 ≈ 33.3, while the
claim's formula (divide by the character count 2) gives 50. -/
theorem accuracy_divides_by_byte_length :
    accuracy appAccent = 100 / 3 ∧ accuracySpec appAccent = 50 ∧
    accuracy appAccent ≠ accuracySpec appAccent := by
  have h1 : matchCountZip appAccent.typed appAccent.sample = 1 := by decide
  have h2 : byteLen appAccent.typed = 3 := by decide
  have h3 : matchCountSpec appAccent.typed appAccent.sample = 1 := by decide
  have h4 : appAccent.typed.length = 2 := by decide
  have h5 : ¬appAccent.typed = [] := by decide
  refine ⟨?_, ?_, ?_⟩
  · simp only [accuracy, h1, h2, if_neg h5]
    norm_num
  · simp only [accuracySpec, h3, h4, if_neg h5]
    norm_num
  · simp only [accuracy, accuracySpec, h1, h2, h3, h4, if_neg h5]
    norm_num

/-- C2 (amended): accuracy is 100 for empty typed text; otherwise it equals
the spec's position-by-position match count divided by the UTF-8 BYTE length
of the typed text, times 100 (the code divides by `String::len`, a byte
count); this coincides with the claim's character-count denominator exactly
when every typed character is one byte, as the third conjunct states. -/
theorem accuracy_eq_spec_count_over_byteLen (app : App) :
    (app.typed = [] → accuracy app = 100) ∧
    (app.typed ≠ [] →
      accuracy app
        = (matchCountSpec app.typed app.sample : ℚ) / (byteLen app.typed : ℚ) * 100) ∧
    ((∀ c ∈ app.typed, c.utf8Size = 1) → accuracy app = accuracySpec app) := by
  refine ⟨fun h => by simp [accuracy, h],
    fun h => by simp [accuracy, h, matchCountZip_eq_spec],
    fun h => ?_⟩
  by_cases he : app.typed = []
  · simp [accuracy, accuracySpec, he]
  · simp [accuracy, accuracySpec, he, matchCountZip_eq_spec, byteLen_eq_length _ h]

/-- C2 witness: the amended formula evaluated on the state typed "Té". -/
theorem accuracy_eq_spec_count_over_byteLen_witness :
    accuracy appAccent
      = (matchCountSpec appAccent.typed appAccent.sample : ℚ)
        / (byteLen appAccent.typed : ℚ) * 100 :=
  (accuracy_eq_spec_count_over_byteLen appAccent).2.1 (by decide)

/-- C3: a session whose typed text is any initial segment of the fixed
sample sentence (including the empty one) has accuracy exactly 100. -/
theorem accuracy_eq_100_of_typed_initial_segment (app : App)
    (hs : app.sample = sampleText) (hp : app.typed <+: app.sample) :
    accuracy app = 100 := by
  by_cases he : app.typed = []
  · simp [accuracy, he]
  · obtain ⟨u, hu⟩ := hp
    have hascii : ∀ c ∈ app.typed, c.utf8Size = 1 := by
      intro c hc
      exact sampleText_ascii c (hs ▸ hu ▸ List.mem_append_left u hc)
    have hmc : matchCountZip app.typed app.sample = app.typed.length := by
      rw [← hu]
      exact matchCountZip_append _ _
    have hbl : byteLen app.typed = app.typed.length := byteLen_eq_length _ hascii
    have hlen : (app.typed.length : ℚ) ≠ 0 :=
      Nat.cast_ne_zero.mpr (fun hl => he (List.length_eq_zero.mp hl))
    simp only [accuracy, if_neg he, hmc, hbl]
    rw [div_self hlen]
    norm_num

/-- C3 witness: the typed text "The quick" is an initial segment of the
sample and scores accuracy 100. -/
theorem accuracy_eq_100_of_typed_initial_segment_witness :
    accuracy appSeg = 100 :=
  accuracy_eq_100_of_typed_initial_segment appSeg rfl (by decide)

/-- C4: a Backspace event replaces `typed` by `typed.dropLast`,
unconditionally (in particular regardless of `finished`, whose value it
leaves untouched): it removes exactly the last character when `typed` is
non-empty and is a complete no-op on the state when `typed` is empty. -/
theorem backspace_pops_last (app : App) (now : Nat) :
    handle_key .backspace now app = { app with typed := app.typed.dropLast } ∧
    (∀ l c, app.typed = l ++ [c] → (handle_key .backspace now app).typed = l) ∧
    (app.typed = [] → handle_key .backspace now app = app) ∧
    (handle_key .backspace now app).finished = app.finished := by
  refine ⟨rfl, ?_, ?_, rfl⟩
  · intro l c hl
    simp [handle_key, hl]
  · intro hl
    cases app with
    | mk s t st f q =>
        subst hl
        rfl

/-- C4 witness: backspace on typed "ab" leaves "a"; backspace on the fresh
session (empty typed text) leaves the state unchanged. -/
theorem backspace_pops_last_witness :
    (handle_key .backspace 0 appAB).typed = ['a'] ∧
    handle_key .backspace 0 App.new = App.new :=
  ⟨(backspace_pops_last appAB 0).2.1 ['a'] 'b' (by decide),
   (backspace_pops_last App.new 0).2.2.1 rfl⟩

/-- C5: `start_time` is `none` in the initial state, is set to the event's
timestamp by the first printable character (when not finished), and once it
holds a value no key event of any kind changes it. -/
theorem start_time_lifecycle :
    App.new.start_time = none ∧
    (∀ app c now, app.finished = false → app.start_time = none →
      (handle_key (Key.char c) now app).start_time = some now) ∧
    (∀ app key now t, app.start_time = some t →
      (handle_key key now app).start_time = some t) := by
  refine ⟨rfl, ?_, ?_⟩
  · intro app c now hf hst
    simp [handle_key, hf, hst, try_finish_start_time]
  · intro app key now t hst
    cases key with
    | esc => simpa using hst
    | backspace => simpa using hst
    | other => simpa using hst
    | char c =>
        by_cases hf : app.finished
        · simp [handle_key, hf, hst]
        · simp [handle_key, hf, hst, try_finish_start_time]

/-- C5 witness: the first typed character stamps the clock at 5, and a later
backspace leaves the stamp at 5. -/
theorem start_time_lifecycle_witness :
    (handle_key (Key.char 'a') 5 App.new).start_time = some 5 ∧
    (handle_key Key.backspace 7 (handle_key (Key.char 'a') 5 App.new)).start_time
      = some 5 := by
  have h1 := start_time_lifecycle.2.1 App.new 'a' 5 rfl rfl
  exact ⟨h1, start_time_lifecycle.2.2 _ Key.backspace 7 5 h1⟩

/-- C6: once `finished` is true no key event resets it, and every printable
character event leaves the whole state unchanged. -/
theorem finished_locks (app : App) (hf : app.finished = true) :
    (∀ key now, (handle_key key now app).finished = true) ∧
    (∀ c now, handle_key (Key.char c) now app = app) := by
  constructor
  · intro key now
    cases key with
    | esc => simpa using hf
    | backspace => simpa using hf
    | other => simpa using hf
    | char c => simp [handle_key, hf]
  · intro c now
    simp [handle_key, hf]

/-- C6 witness: on a completed session, backspace keeps `finished` true and
a further character is ignored entirely. -/
theorem finished_locks_witness :
    (handle_key Key.backspace 0 appDone).finished = true ∧
    handle_key (Key.char 'x') 3 appDone = appDone :=
  ⟨(finished_locks appDone rfl).1 Key.backspace 0,
   (finished_locks appDone rfl).2 'x' 3⟩

/-- C7: in every state reachable from the initial session, `finished = true`
implies `start_time` is set; hence `start_time.unwrap()` in the finished
branch of `ui` cannot fail. -/
theorem reachable_finished_implies_start_time (app : App) (h : Reachable app)
    (hf : app.finished = true) : app.start_time.isSome = true := by
  induction h with
  | init => simp [App.new] at hf
  | step app key now hr ih =>
      cases key with
      | esc => exact ih hf
      | backspace => exact ih hf
      | other => exact ih hf
      | char c =>
          by_cases hfin : app.finished
          · have he : handle_key (Key.char c) now app = app := by
              simp [handle_key, hfin]
            rw [he] at hf ⊢
            exact ih hf
          · cases hso : app.start_time with
            | none => simp [handle_key, hfin, hso, try_finish_start_time]
            | some t => simp [handle_key, hfin, hso, try_finish_start_time]

set_option maxRecDepth 100000 in
/-- C7 witness: typing the full sample from the initial session reaches a
finished state, and its start time is indeed set. -/
theorem reachable_finished_implies_start_time_witness :
    (typeAll sampleText App.new).start_time.isSome = true :=
  reachable_finished_implies_start_time _
    (reachable_typeAll sampleText App.new Reachable.init) (by decide)

theorem renderColors_getElem (app : App) (i : Nat) (hi : i < app.sample.length) :
    (renderColors app)[i]?
      = some (match app.typed[i]? with
          | some t => if t = app.sample[i] then Color.green else Color.red
          | none => Color.darkGray) := by
  unfold renderColors
  rw [List.getElem?_map, List.getElem?_enum, List.getElem?_eq_getElem hi]
  rfl

/-- C8: at every sample position `i` the renderer compares the sample
character with `typed.chars().nth(i)`: green when a typed character exists
and matches, red when one exists and differs, dark gray when position `i` is
beyond the typed text. -/
theorem renderColors_cases (app : App) (i : Nat) (hi : i < app.sample.length) :
    ((i < app.typed.length ∧ app.typed[i]? = app.sample[i]?) →
      (renderColors app)[i]? = some Color.green) ∧
    (∀ t, app.typed[i]? = some t → app.sample[i]? ≠ some t →
      (renderColors app)[i]? = some Color.red) ∧
    (app.typed.length ≤ i → (renderColors app)[i]? = some Color.darkGray) := by
  have hs : app.sample[i]? = some (app.sample[i]) := List.getElem?_eq_getElem hi
  rw [renderColors_getElem app i hi]
  refine ⟨?_, ?_, ?_⟩
  · rintro ⟨hlt, heq⟩
    have ht : app.typed[i]? = some (app.sample[i]) := by rw [heq, hs]
    rw [ht]
    simp
  · intro t ht hne
    have htne : t ≠ app.sample[i] := fun he => hne (he ▸ hs)
    rw [ht]
    simp [htne]
  · intro hle
    rw [List.getElem?_eq_none hle]

/-- C8 witness: against sample "cat" with typed "cb", position 0 is green,
position 1 is red, position 2 is dark gray. -/
theorem renderColors_cases_witness :
    (renderColors appCb)[0]? = some Color.green ∧
    (renderColors appCb)[1]? = some Color.red ∧
    (renderColors appCb)[2]? = some Color.darkGray :=
  ⟨(renderColors_cases appCb 0 (by decide)).1 ⟨by decide, by decide⟩,
   (renderColors_cases appCb 1 (by decide)).2.1 'b' (by decide) (by decide),
   (renderColors_cases appCb 2 (by decide)).2.2 (by decide)⟩

/-- C9: the fixed sample has 8 space characters so the rough word count is
9, and finishing in exactly 60 elapsed seconds gives 9 / (60 / 60) = 9 words
per minute. -/
theorem word_count_and_wpm_at_60s :
    word_count App.new.sample = 9 ∧ wpm (word_count App.new.sample) 60 = 9 := by
  have h : word_count App.new.sample = 9 := by decide
  refine ⟨h, ?_⟩
  rw [h]
  unfold wpm
  norm_num

/-- C10: for every state — any sample text, any typed text whatsoever — the
accuracy value lies between 0 and 100 inclusive. -/
theorem accuracy_mem_Icc (app : App) : 0 ≤ accuracy app ∧ accuracy app ≤ 100 := by
  unfold accuracy
  by_cases he : app.typed = []
  · simp [he]
  · rw [if_neg he]
    have hm : matchCountZip app.typed app.sample ≤ byteLen app.typed :=
      le_trans (matchCountZip_le_length _ _) (length_le_byteLen _)
    have hb : 0 < byteLen app.typed :=
      lt_of_lt_of_le (List.length_pos.mpr he) (length_le_byteLen _)
    have hbq : (0:ℚ) < (byteLen app.typed : ℚ) := by exact_mod_cast hb
    constructor
    · positivity
    · have hdiv : (matchCountZip app.typed app.sample : ℚ)
          / (byteLen app.typed : ℚ) ≤ 1 :=
        (div_le_one hbq).mpr (by exact_mod_cast hm)
      calc (matchCountZip app.typed app.sample : ℚ) / (byteLen app.typed : ℚ) * 100
          ≤ 1 * 100 := mul_le_mul_of_nonneg_right hdiv (by norm_num)
        _ = 100 := by norm_num

end Tser
